import Mathlib

/-!
Verification of the XMPP conversation core (`xmpp.go`): the stanza
dispatch engine, the filter registry, the sender and receiver tasks and
the synchronous request/response helper, shallowly embedded in Lean.

Channels are modelled by tokens (`Nat`): a fresh token stands for a fresh
Go channel, a send on a channel is an explicit event, and closing a
channel records its token. Goroutine interleaving is not modelled; each
task body is embedded as a function from its inputs to the sequence of
externally visible events it performs, which is faithful because each
task is single-threaded and the registry is read under a lock.
-/

namespace Xmpp

/-- Modelled from the spec: the concrete stanza data types (`Error`, `IQ`,
`Message`, `Presence`) and the raw transport failure value are code of the
repository outside the dispatch core. Per the spec, a Query (`IQ`) carries
a correlation identifier (`ID`) and a kind (`Type`: get/set/result/error);
the payloads of the other variants are opaque here. `nilV` is the Go nil
interface value, the state of the receiver variable when no variant was
selected for an element. -/
inductive V where
  | failure
  | errStanza (p : String)
  | iq (id ty : String)
  | message (p : String)
  | presence (p : String)
  | nilV
  deriving DecidableEq, Repr

/-- `IQResult` from the source: the matcher built by `IQResult(id)`. It
type-asserts the value to `*IQ` and compares `iq.ID` to `id`; it reads no
other field. -/
def IQResult (id : String) : V → Bool := fun v =>
  match v with
  | V.iq i _ => decide (i = id)
  | _ => false

/-- Modelled from the spec: the matcher the spec describes for
`byCorrelationId(id)`, accepting only a Query whose kind is
result-equivalent and whose correlation identifier equals `id`. Written
from the words of the spec, to be compared with `IQResult` from the
source. -/
def byCorrelationIdSpec (id : String) : V → Bool := fun v =>
  match v with
  | V.iq i ty => decide (i = id) && decide (ty = "result")
  | _ => false

/-- The `filter` struct from the source: identifier, matcher, delivery
channel (a channel token). -/
structure Filt where
  id : Int
  m : V → Bool
  ch : Nat

/-- The filter registry part of the `XMPP` struct: the `nextFilterID`
counter, the ordered filter list, plus two modelling components: the next
fresh channel token and the list of tokens of closed channels. -/
structure XState where
  nextFilterID : Int
  nextCh : Nat
  filters : List Filt
  closed : List Nat

/-- The zero value of the registry state, as `newXMPP` leaves it. -/
def x0 : XState := ⟨0, 0, [], []⟩

/-- Wraparound of Go int64 arithmetic: the representative of `n` in
`[-2 ^ 63, 2 ^ 63)`. -/
def wrap64 (n : Int) : Int := (n + 2 ^ 63) % 2 ^ 64 - 2 ^ 63

/-- `AddFilter` from the source: make a fresh channel, allocate
`nextFilterID` (a Go int64, incremented with wraparound), cons the new
filter onto the head of the list, return the id and the channel. -/
def AddFilter (m : V → Bool) (s : XState) : (Int × Nat) × XState :=
  ((s.nextFilterID, s.nextCh),
   { nextFilterID := wrap64 (s.nextFilterID + 1)
     nextCh := s.nextCh + 1
     filters := { id := s.nextFilterID, m := m, ch := s.nextCh } :: s.filters
     closed := s.closed })

/-- The scan of `RemoveFilter` over the filter list: at the first filter
whose id matches, yield its channel and the list with it removed;
otherwise none. -/
def removeAux (id : Int) : List Filt → Option (Nat × List Filt)
  | [] => none
  | f :: rest =>
    if f.id = id then some (f.ch, rest)
    else
      match removeAux id rest with
      | some (c, l) => some (c, f :: l)
      | none => none

/-- `RemoveFilter` from the source: find the filter by id; if found, close
its channel and remove it from the list, returning nil; if not found,
return the id itself as the error value (`FilterID` implements `error`). -/
def RemoveFilter (id : Int) (s : XState) : Except Int Unit × XState :=
  match removeAux id s.filters with
  | some (c, l) => (Except.ok (), { s with filters := l, closed := c :: s.closed })
  | none => (Except.error id, s)

/-- Claim C1: the correlation matcher `IQResult(id)` accepts an `IQ` of any
kind whose `ID` matches; it never inspects `iq.Type`, although its own doc
comment says it identifies a `type="result"` stanza. At the failing input,
an `IQ` with the given id but kind `get`, the source matcher returns true
while the claimed (and spec-described) matcher returns false; on non-IQ
stanzas and mismatched ids both reject. -/
theorem IQResult_ignores_kind :
    IQResult "42" (V.iq "42" "get") = true ∧
    byCorrelationIdSpec "42" (V.iq "42" "get") = false ∧
    IQResult "42" (V.iq "42" "result") = true ∧
    byCorrelationIdSpec "42" (V.iq "42" "result") = true ∧
    IQResult "42" (V.iq "7" "result") = false ∧
    IQResult "42" (V.message "m") = false ∧
    IQResult "42" V.failure = false := by
  decide

/-- Everything `SendRecv` does, in order: the filter it registered (id and
channel), the registry state while it waits (`during`), the value it sent
on the outbound channel, the returned value (`none` is the
`Expected IQ, for %T` type-mismatch error) and the registry state when it
returns (`final`). -/
structure SRRun where
  fid : Int
  ch : Nat
  sentOut : V
  during : XState
  result : Option V
  final : XState

/-- `SendRecv` from the source: add a filter `IQResult(iq.ID)`, send the
query on `Out`, receive one value from the filter channel (`delivered`,
a parameter because it is produced by the receiver task), type-assert it
to `*IQ`, and remove the filter. The deferred `RemoveFilter(fid)` runs on
every return path, so the model removes the filter after the branch on
`delivered`, unconditionally. -/
def SendRecv (s : XState) (iqId iqType : String) (delivered : V) : SRRun :=
  let a := AddFilter (IQResult iqId) s
  let res : Option V :=
    match delivered with
    | V.iq i ty => some (V.iq i ty)
    | _ => none
  { fid := a.1.1, ch := a.1.2, sentOut := V.iq iqId iqType, during := a.2,
    result := res, final := (RemoveFilter a.1.1 a.2).2 }

/-- Claim C2: `SendRecv` registers a correlation filter for the identifier
of the query (newest, at the head, with a fresh channel), sends the query
on the outbound channel, and whatever single value the filter channel
delivers, the filter is removed — and its channel closed — by the time it
returns, so the registry is restored to its previous filter list; a
delivered value that is not an `IQ` yields the type-mismatch failure
(`none`), and a delivered `IQ` is returned as is. -/
theorem SendRecv_correlates_and_cleans (s : XState) (i t : String) (d : V) :
    (SendRecv s i t d).fid = s.nextFilterID ∧
    (SendRecv s i t d).ch = s.nextCh ∧
    (SendRecv s i t d).during.filters =
      { id := s.nextFilterID, m := IQResult i, ch := s.nextCh } :: s.filters ∧
    (SendRecv s i t d).sentOut = V.iq i t ∧
    (SendRecv s i t d).final.filters = s.filters ∧
    (SendRecv s i t d).final.closed = s.nextCh :: s.closed ∧
    (∀ a b, d = V.iq a b → (SendRecv s i t d).result = some d) ∧
    ((∀ a b, d ≠ V.iq a b) → (SendRecv s i t d).result = none) := by
  refine ⟨rfl, rfl, rfl, rfl, ?_, ?_, ?_, ?_⟩
  · simp [SendRecv, AddFilter, RemoveFilter, removeAux]
  · simp [SendRecv, AddFilter, RemoveFilter, removeAux]
  · intro a b h
    subst h
    rfl
  · intro h
    cases d with
    | iq a b => exact absurd rfl (h a b)
    | failure => rfl
    | errStanza p => rfl
    | message p => rfl
    | presence p => rfl
    | nilV => rfl

/-- Claim C2, witness: at the empty registry, a delivered `Message` makes
`SendRecv` report the type mismatch, and the registry filter list is
restored with the correlation channel (token 0) closed. -/
theorem SendRecv_correlates_and_cleans_w :
    (SendRecv x0 "1" "get" (V.message "m")).result = none ∧
    (SendRecv x0 "1" "get" (V.message "m")).final.filters = [] ∧
    (SendRecv x0 "1" "get" (V.message "m")).final.closed = [0] := by
  obtain ⟨-, -, -, -, h5, h6, -, h8⟩ :=
    SendRecv_correlates_and_cleans x0 "1" "get" (V.message "m")
  exact ⟨h8 (fun a b => by simp), h5, h6⟩

/-- At the first filter whose id matches, `removeAux` removes exactly that
filter and yields its channel. -/
theorem removeAux_found (id : Int) (f : Filt) (hf : f.id = id) :
    ∀ (l1 l2 : List Filt), (∀ g ∈ l1, g.id ≠ id) →
      removeAux id (l1 ++ f :: l2) = some (f.ch, l1 ++ l2)
  | [], l2, _ => by simp [removeAux, hf]
  | g :: l1, l2, h => by
    have hg : g.id ≠ id := h g (List.mem_cons_self g l1)
    simp only [List.cons_append, removeAux, List.append_eq, if_neg hg,
      removeAux_found id f hf l1 l2 (fun g hgm => h g (List.mem_cons_of_mem _ hgm))]

/-- When no filter in the list has the id, `removeAux` yields none. -/
theorem removeAux_none (id : Int) :
    ∀ l : List Filt, (∀ g ∈ l, g.id ≠ id) → removeAux id l = none
  | [], _ => rfl
  | g :: l, h => by
    have hg : g.id ≠ id := h g (List.mem_cons_self g l)
    simp only [removeAux, if_neg hg,
      removeAux_none id l (fun g hgm => h g (List.mem_cons_of_mem _ hgm))]

/-- Claim C4: when a filter with the identifier is present, `RemoveFilter`
returns nil, closes exactly the channel of that filter and removes it from
the list; when none is present it returns the NotFound error value and
leaves the state untouched; hence a second `RemoveFilter` of the same id
after a successful one reports NotFound on the unchanged state instead of
closing a channel again. -/
theorem RemoveFilter_found_and_notfound (s : XState) (id : Int) :
    ((∀ g ∈ s.filters, g.id ≠ id) → RemoveFilter id s = (Except.error id, s)) ∧
    (∀ (l1 : List Filt) (f : Filt) (l2 : List Filt),
      s.filters = l1 ++ f :: l2 → f.id = id →
      (∀ g ∈ l1, g.id ≠ id) → (∀ g ∈ l2, g.id ≠ id) →
      RemoveFilter id s =
        (Except.ok (), { s with filters := l1 ++ l2, closed := f.ch :: s.closed }) ∧
      RemoveFilter id (RemoveFilter id s).2 =
        (Except.error id, (RemoveFilter id s).2)) := by
  constructor
  · intro h
    simp [RemoveFilter, removeAux_none id s.filters h]
  · intro l1 f l2 hs hf h1 h2
    have hfound : RemoveFilter id s =
        (Except.ok (), { s with filters := l1 ++ l2, closed := f.ch :: s.closed }) := by
      simp [RemoveFilter, hs, removeAux_found id f hf l1 l2 h1]
    refine ⟨hfound, ?_⟩
    have hnone : ∀ g ∈ l1 ++ l2, g.id ≠ id := by
      intro g hg
      rcases List.mem_append.mp hg with hg | hg
      · exact h1 g hg
      · exact h2 g hg
    rw [hfound]
    simp [RemoveFilter, removeAux_none id (l1 ++ l2) hnone]

/-- Claim C4, witness: in a registry with the single filter id 0 on
channel 5, removing id 0 succeeds and closes channel 5, and removing id 0
again reports the NotFound error without further change. -/
theorem RemoveFilter_found_and_notfound_w :
    RemoveFilter 0 ⟨1, 6, [⟨0, IQResult "1", 5⟩], []⟩ =
      (Except.ok (), ⟨1, 6, [], [5]⟩) ∧
    RemoveFilter 0 ⟨1, 6, [], [5]⟩ = (Except.error 0, ⟨1, 6, [], [5]⟩) := by
  obtain ⟨h1, h2⟩ :=
    (RemoveFilter_found_and_notfound ⟨1, 6, [⟨0, IQResult "1", 5⟩], []⟩ 0).2
      [] ⟨0, IQResult "1", 5⟩ [] rfl rfl (by simp) (by simp)
  exact ⟨h1, h2⟩

/-- Claim C10: removing a present identifier (here the first occurrence,
with the scan passing `l1`) keeps every other filter record — identifier,
matcher and channel — exactly as it was and in the same relative order,
closes only the channel of the removed filter, and leaves the
`nextFilterID` counter and the fresh-channel counter unchanged. -/
theorem RemoveFilter_frame (s : XState) (l1 l2 : List Filt) (f : Filt)
    (hs : s.filters = l1 ++ f :: l2) (h1 : ∀ g ∈ l1, g.id ≠ f.id) :
    RemoveFilter f.id s =
      (Except.ok (),
       { nextFilterID := s.nextFilterID, nextCh := s.nextCh,
         filters := l1 ++ l2, closed := f.ch :: s.closed }) := by
  simp [RemoveFilter, hs, removeAux_found f.id f rfl l1 l2 h1]

/-- Claim C10, witness: removing id 0 from a registry holding filters with
ids 1 and 0 (channels 1 and 0) keeps the id-1 filter untouched, closes
only channel 0 and leaves the counters at 2. -/
theorem RemoveFilter_frame_w :
    RemoveFilter 0 ⟨2, 2, [⟨1, IQResult "q", 1⟩, ⟨0, IQResult "r", 0⟩], []⟩ =
      (Except.ok (), ⟨2, 2, [⟨1, IQResult "q", 1⟩], [0]⟩) := by
  have h := RemoveFilter_frame ⟨2, 2, [⟨1, IQResult "q", 1⟩, ⟨0, IQResult "r", 0⟩], []⟩
    [⟨1, IQResult "q", 1⟩] [] ⟨0, IQResult "r", 0⟩ rfl (by simp)
  simpa using h

/-- Modelled from the spec: a top-level element as the transport yields it
to the receiver, together with what the transport decode operation (an
external collaborator, spec section 6) materializes from it: the tag name
(`start.Name.Local`), the correlation identifier and kind a decode into an
`IQ` fills in, and the payload a decode into any other variant fills in. -/
structure Elem where
  tag : String
  dId : String
  dType : String
  payload : String

/-- The value held by the receiver variable `v` after the tag switch and
the decode call: the variant selected by the tag, filled by decode; for an
unrecognized tag the variable stays the nil interface value. -/
def recvValue (e : Elem) : V :=
  match e.tag with
  | "error" => V.errStanza e.payload
  | "iq" => V.iq e.dId e.dType
  | "message" => V.message e.payload
  | "presence" => V.presence e.payload
  | _ => V.nilV

/-- Externally visible actions of the two tasks: a call of the transport
decode operation for the element with the given tag, a blocking send on a
filter channel, a blocking send on the inbound channel, a forward to the
transport send operation, the stream-closing end element, and closing the
inbound channel. -/
inductive Ev where
  | decodeCall (tag : String)
  | filtSend (ch : Nat) (v : V)
  | inSend (v : V)
  | streamSend (v : V)
  | sendEnd (space loc : String)
  | closeIn
  deriving DecidableEq, Repr

/-- The effect of `Close()`: send the closing element
`</stream:stream>` to the transport. -/
def closeEvent : Ev := Ev.sendEnd "stream" "stream"

/-- The filter loop of the receiver, with its accumulated channel sends
and the `filtered` flag: for each filter in list order, if its matcher
accepts the value, send the value on its channel and set the flag. -/
def dispatchLoop (v : V) : List Filt → List Ev → Bool → List Ev × Bool
  | [], acc, filtered => (acc, filtered)
  | f :: rest, acc, filtered =>
    if f.m v then dispatchLoop v rest (acc ++ [Ev.filtSend f.ch v]) true
    else dispatchLoop v rest acc filtered

/-- One iteration of the receiver loop on a successfully read element:
call decode, run the filter loop, and send on the inbound channel exactly
when the flag stayed false. -/
def stepEvents (fs : List Filt) (e : Elem) : List Ev :=
  Ev.decodeCall e.tag ::
    ((dispatchLoop (recvValue e) fs [] false).1 ++
      if (dispatchLoop (recvValue e) fs [] false).2 then []
      else [Ev.inSend (recvValue e)])

/-- Closed form of the filter loop: it appends, to whatever was
accumulated, one channel send for each filter whose matcher accepts the
value, in list order, and the flag ends true exactly when some matcher
accepted. -/
theorem dispatchLoop_eq (v : V) (fs : List Filt) :
    ∀ (acc : List Ev) (b : Bool),
      dispatchLoop v fs acc b =
        (acc ++ (fs.filter fun f => f.m v).map fun f => Ev.filtSend f.ch v,
         b || fs.any fun f => f.m v) := by
  induction fs with
  | nil => intro acc b; simp [dispatchLoop]
  | cons f rest ih =>
    intro acc b
    by_cases h : f.m v
    · simp [dispatchLoop, h, ih]
    · simp [dispatchLoop, h, ih]

/-- Claim C5: for each decoded value the receiver evaluates the filter
list in sequence order (the registry keeps it most-recently-added first:
`AddFilter` inserts at the head), sends the value on the channel of every
filter whose matcher accepts it, in that order, and sends the value on the
general inbound channel exactly when no matcher accepted it. -/
theorem receiver_dispatch_order (fs : List Filt) (e : Elem) :
    stepEvents fs e =
      Ev.decodeCall e.tag ::
        (((fs.filter fun f => f.m (recvValue e)).map
            fun f => Ev.filtSend f.ch (recvValue e)) ++
          if fs.any fun f => f.m (recvValue e) then []
          else [Ev.inSend (recvValue e)]) ∧
    (Ev.inSend (recvValue e) ∈ stepEvents fs e ↔
      ∀ f ∈ fs, f.m (recvValue e) = false) := by
  have hA : stepEvents fs e =
      Ev.decodeCall e.tag ::
        (((fs.filter fun f => f.m (recvValue e)).map
            fun f => Ev.filtSend f.ch (recvValue e)) ++
          if fs.any fun f => f.m (recvValue e) then []
          else [Ev.inSend (recvValue e)]) := by
    simp [stepEvents, dispatchLoop_eq]
  refine ⟨hA, ?_⟩
  constructor
  · intro hmem f hf
    by_contra hm
    have hm' : f.m (recvValue e) = true := by
      cases hfm : f.m (recvValue e)
      · exact absurd hfm hm
      · rfl
    have hany : (fs.any fun g => g.m (recvValue e)) = true :=
      List.any_eq_true.mpr ⟨f, hf, hm'⟩
    rw [hA] at hmem
    simp [hany] at hmem
  · intro hall
    have hany : (fs.any fun g => g.m (recvValue e)) = false := by
      rw [List.any_eq_false]
      intro f hf
      simp [hall f hf]
    rw [hA]
    simp [hany]

/-- What one call of `stream.Next` yields to the receiver: a transport
error, or the start of a top-level element. -/
inductive TIn where
  | err
  | elem (e : Elem)

/-- The receiver loop over a list of transport reads, with a fixed filter
list: on an element, one iteration of events; on a transport error, send
the failure value on the inbound channel and return, whereupon the
deferred block runs `Close()` (the stream-closing element) and then closes
the inbound channel, in that order. An exhausted list means the task is
still blocked in `stream.Next`, so no termination events. -/
def receiverRun (fs : List Filt) : List TIn → List Ev
  | [] => []
  | TIn.err :: _ => [Ev.inSend V.failure, closeEvent, Ev.closeIn]
  | TIn.elem e :: rest => stepEvents fs e ++ receiverRun fs rest

/-- The events of the receiver processing a list of elements in order. -/
def eventsOf (fs : List Filt) : List Elem → List Ev
  | [] => []
  | e :: rest => stepEvents fs e ++ eventsOf fs rest

/-- The sender loop: forward each value received from the outbound channel
to the transport send operation; when the channel is closed, the loop ends
and the task runs `Close()`, sending the stream-closing element. -/
def senderRun : List V → List Ev
  | [] => [closeEvent]
  | v :: rest => Ev.streamSend v :: senderRun rest

/-- The inbound-channel sends of an event list, in order. -/
def evIn : Ev → Option V
  | Ev.inSend v => some v
  | _ => none

/-- The value of the receiver variable is never the transport failure
value: only the error branch of `stream.Next` puts a failure value on the
inbound channel. -/
theorem recvValue_ne_failure (e : Elem) : recvValue e ≠ V.failure := by
  unfold recvValue
  split <;> simp

/-- Every event of one receiver iteration on an element is the decode
call, a filter-channel send of the decoded value, or an inbound send of
the decoded value. -/
theorem mem_stepEvents (fs : List Filt) (e : Elem) (ev : Ev)
    (h : ev ∈ stepEvents fs e) :
    ev = Ev.decodeCall e.tag ∨ (∃ c, ev = Ev.filtSend c (recvValue e)) ∨
      ev = Ev.inSend (recvValue e) := by
  rw [(receiver_dispatch_order fs e).1] at h
  rcases List.mem_cons.mp h with h | h
  · exact Or.inl h
  · rcases List.mem_append.mp h with h | h
    · rcases List.mem_map.mp h with ⟨f, -, hf⟩
      exact Or.inr (Or.inl ⟨f.ch, hf.symm⟩)
    · right; right
      rcases hany : fs.any fun f => f.m (recvValue e) with - | -
      · rw [hany] at h
        simpa using h
      · rw [hany] at h
        simp at h

/-- Element processing never sends the failure value on the inbound
channel. -/
theorem stepEvents_no_failure (fs : List Filt) (e : Elem) :
    Ev.inSend V.failure ∉ stepEvents fs e := by
  intro h
  rcases mem_stepEvents fs e _ h with h | ⟨c, h⟩ | h
  · simp at h
  · simp at h
  · have := recvValue_ne_failure e
    simp only [Ev.inSend.injEq] at h
    exact this h.symm

/-- Element processing never closes the inbound channel. -/
theorem stepEvents_no_closeIn (fs : List Filt) (e : Elem) :
    Ev.closeIn ∉ stepEvents fs e := by
  intro h
  rcases mem_stepEvents fs e _ h with h | ⟨c, h⟩ | h <;> simp at h

/-- Element processing never sends the stream-closing element. -/
theorem stepEvents_no_close (fs : List Filt) (e : Elem) :
    closeEvent ∉ stepEvents fs e := by
  intro h
  rcases mem_stepEvents fs e _ h with h | ⟨c, h⟩ | h <;> simp [closeEvent] at h

/-- The failure value is never sent on the inbound channel while elements
are being processed. -/
theorem eventsOf_no_failure (fs : List Filt) (pre : List Elem) :
    Ev.inSend V.failure ∉ eventsOf fs pre := by
  induction pre with
  | nil => simp [eventsOf]
  | cons e rest ih =>
    simp only [eventsOf, List.mem_append]
    rintro (h | h)
    · exact stepEvents_no_failure fs e h
    · exact ih h

/-- The inbound channel is never closed while elements are being
processed. -/
theorem eventsOf_no_closeIn (fs : List Filt) (pre : List Elem) :
    Ev.closeIn ∉ eventsOf fs pre := by
  induction pre with
  | nil => simp [eventsOf]
  | cons e rest ih =>
    simp only [eventsOf, List.mem_append]
    rintro (h | h)
    · exact stepEvents_no_closeIn fs e h
    · exact ih h

/-- The stream-closing element is never sent while elements are being
processed. -/
theorem eventsOf_no_close (fs : List Filt) (pre : List Elem) :
    closeEvent ∉ eventsOf fs pre := by
  induction pre with
  | nil => simp [eventsOf]
  | cons e rest ih =>
    simp only [eventsOf, List.mem_append]
    rintro (h | h)
    · exact stepEvents_no_close fs e h
    · exact ih h

/-- Claim C7: when the transport read fails after some elements, the
receiver trace is exactly the element processing, then one inbound send of
the failure value, then the stream termination (`Close()`), then the close
of the inbound channel — so termination and channel close happen in that
order on exit, the whole trace contains exactly one failure send, and
nothing follows the close of the inbound channel. -/
theorem receiver_exit_cleanup (fs : List Filt) (pre : List Elem)
    (rest : List TIn) :
    receiverRun fs (pre.map TIn.elem ++ TIn.err :: rest) =
      eventsOf fs pre ++ [Ev.inSend V.failure, closeEvent, Ev.closeIn] ∧
    (receiverRun fs (pre.map TIn.elem ++ TIn.err :: rest)).count
        (Ev.inSend V.failure) = 1 ∧
    Ev.closeIn ∉ eventsOf fs pre ∧
    closeEvent ∉ eventsOf fs pre := by
  have htrace : receiverRun fs (pre.map TIn.elem ++ TIn.err :: rest) =
      eventsOf fs pre ++ [Ev.inSend V.failure, closeEvent, Ev.closeIn] := by
    induction pre with
    | nil => simp [receiverRun, eventsOf]
    | cons e p ih => simp [receiverRun, eventsOf, ih]
  have hcnt : (eventsOf fs pre).count (Ev.inSend V.failure) = 0 :=
    List.count_eq_zero.mpr (eventsOf_no_failure fs pre)
  refine ⟨htrace, ?_, eventsOf_no_closeIn fs pre, eventsOf_no_close fs pre⟩
  rw [htrace, List.count_append, hcnt]
  decide

/-- Claim C8: the sender forwards every value received from the outbound
channel to the transport send operation, unmodified and in the order
received, and when the outbound channel is closed the loop ends and the
stream-closing element is sent. -/
theorem sender_forwards_then_closes (outs : List V) :
    senderRun outs = outs.map Ev.streamSend ++ [closeEvent] := by
  induction outs with
  | nil => rfl
  | cons v rest ih => simp [senderRun, ih]

/-- Claim C9: with no filters registered, the decoded stanzas appear on
the inbound channel exactly in the order their elements were read from
the transport. -/
theorem receiver_preserves_order (elems : List Elem) :
    (receiverRun [] (elems.map TIn.elem)).filterMap evIn =
      elems.map recvValue := by
  induction elems with
  | nil => rfl
  | cons e rest ih =>
    simp [receiverRun, stepEvents, dispatchLoop, evIn, ih]

/-- Claim C6, counterexample: at the concrete element with the
unrecognized tag `foo`, the receiver iteration does contain the decode
call — the transport decode operation is invoked for that element, against
the claim that the decode step is skipped (the call in the source sits
outside the tag switch and runs with the value still unset). -/
theorem receiver_decode_not_skipped :
    Ev.decodeCall "foo" ∈ stepEvents [] ⟨"foo", "", "", ""⟩ := by
  simp [stepEvents]

/-- Claim C6 (amended): the variant decoded into is selected from the tag
by error to `Error`, iq to `IQ`, message to `Message` and presence to
`Presence`; an unrecognized tag is logged and the value remains unset
(nil) for the iteration, but the decode step is not skipped — the
transport decode operation is invoked for every element, the unrecognized
ones included. -/
theorem receiver_variant_mapping (fs : List Filt) (e : Elem) :
    (e.tag = "error" → recvValue e = V.errStanza e.payload) ∧
    (e.tag = "iq" → recvValue e = V.iq e.dId e.dType) ∧
    (e.tag = "message" → recvValue e = V.message e.payload) ∧
    (e.tag = "presence" → recvValue e = V.presence e.payload) ∧
    (e.tag ≠ "error" → e.tag ≠ "iq" → e.tag ≠ "message" →
      e.tag ≠ "presence" → recvValue e = V.nilV) ∧
    Ev.decodeCall e.tag ∈ stepEvents fs e := by
  refine ⟨?_, ?_, ?_, ?_, ?_, ?_⟩
  · intro h; simp [recvValue, h]
  · intro h; simp [recvValue, h]
  · intro h; simp [recvValue, h]
  · intro h; simp [recvValue, h]
  · intro h1 h2 h3 h4
    unfold recvValue
    split
    · exact absurd (by assumption) h1
    · exact absurd (by assumption) h2
    · exact absurd (by assumption) h3
    · exact absurd (by assumption) h4
    · rfl
  · simp [stepEvents]

/-- Claim C6 (amended), witness: at the element with tag `foo` the value
stays nil and the decode call is still in the iteration trace. -/
theorem receiver_variant_mapping_w :
    recvValue ⟨"foo", "a", "b", "c"⟩ = V.nilV ∧
    Ev.decodeCall "foo" ∈ stepEvents [] ⟨"foo", "a", "b", "c"⟩ := by
  obtain ⟨-, -, -, -, h5, h6⟩ :=
    receiver_variant_mapping [] ⟨"foo", "a", "b", "c"⟩
  exact ⟨h5 (by decide) (by decide) (by decide) (by decide), h6⟩

/-- A successful scan removes one filter and returns a sublist of the
original list. -/
theorem removeAux_sublist (id : Int) :
    ∀ (l : List Filt) (c : Nat) (l2 : List Filt),
      removeAux id l = some (c, l2) → List.Sublist l2 l := by
  intro l
  induction l with
  | nil => intro c l2 h; simp [removeAux] at h
  | cons f rest ih =>
    intro c l2 h
    simp only [removeAux] at h
    by_cases hf : f.id = id
    · rw [if_pos hf] at h
      simp only [Option.some.injEq, Prod.mk.injEq] at h
      rw [← h.2]
      exact List.sublist_cons_self f rest
    · rw [if_neg hf] at h
      cases hr : removeAux id rest with
      | none => rw [hr] at h; simp at h
      | some p =>
        obtain ⟨c0, l0⟩ := p
        rw [hr] at h
        simp only [Option.some.injEq, Prod.mk.injEq] at h
        rw [← h.2]
        exact List.Sublist.cons₂ f (ih c0 l0 hr)

/-- The registry invariant: the counter is non-negative, every filter id
is below the counter, and the ids along the list strictly decrease
(newest, largest first). -/
def RegInv (s : XState) : Prop :=
  0 ≤ s.nextFilterID ∧
  (∀ f ∈ s.filters, f.id < s.nextFilterID) ∧
  List.Pairwise (fun a b => a > b) (s.filters.map Filt.id)

/-- A registry mutation by application code: an `AddFilter` with some
matcher, or a `RemoveFilter` of some id. -/
inductive Op where
  | add (m : V → Bool)
  | remove (id : Int)

/-- The number of `AddFilter` calls in a sequence of mutations. -/
def numAdds : List Op → Nat
  | [] => 0
  | Op.add _ :: ops => numAdds ops + 1
  | Op.remove _ :: ops => numAdds ops

/-- Run a sequence of registry mutations, collecting the identifiers the
`AddFilter` calls return, in call order. -/
def runTrace (s : XState) : List Op → XState × List Int
  | [] => (s, [])
  | Op.add m :: ops =>
    let a := AddFilter m s
    let r := runTrace a.2 ops
    (r.1, a.1.1 :: r.2)
  | Op.remove i :: ops => runTrace (RemoveFilter i s).2 ops

theorem two63 : (2 : Int) ^ 63 = 9223372036854775808 := by norm_num

theorem two64 : (2 : Int) ^ 64 = 18446744073709551616 := by norm_num

/-- Go int64 increment below the overflow bound is plain increment. -/
theorem wrap64_eq (n : Int) (h1 : -(2 ^ 63) ≤ n) (h2 : n < 2 ^ 63) :
    wrap64 n = n := by
  unfold wrap64
  rw [two63] at h1 h2 ⊢
  rw [two64]
  omega

/-- `RemoveFilter` preserves the registry invariant and never changes the
identifier counter. -/
theorem RemoveFilter_inv (id : Int) (s : XState) (h : RegInv s) :
    RegInv (RemoveFilter id s).2 ∧
      (RemoveFilter id s).2.nextFilterID = s.nextFilterID := by
  unfold RemoveFilter
  cases hr : removeAux id s.filters with
  | none => exact ⟨h, rfl⟩
  | some p =>
    obtain ⟨c, l2⟩ := p
    have hsub : List.Sublist l2 s.filters := removeAux_sublist id s.filters c l2 hr
    refine ⟨⟨h.1, ?_, ?_⟩, rfl⟩
    · intro f hf
      exact h.2.1 f (hsub.subset hf)
    · exact List.Pairwise.sublist (List.Sublist.map Filt.id hsub) h.2.2

/-- Main induction for claim C3: from an invariant state, as long as the
adds cannot overflow the int64 counter, running any mutation sequence
keeps the invariant, advances the counter by the number of adds, and the
returned identifiers are strictly increasing and at least the starting
counter value. -/
theorem runTrace_spec :
    ∀ (ops : List Op) (s : XState), RegInv s →
      s.nextFilterID + (numAdds ops : Int) < 2 ^ 63 →
      RegInv (runTrace s ops).1 ∧
      (runTrace s ops).1.nextFilterID = s.nextFilterID + (numAdds ops : Int) ∧
      List.Pairwise (fun a b => a < b) (runTrace s ops).2 ∧
      ∀ i ∈ (runTrace s ops).2, s.nextFilterID ≤ i := by
  intro ops
  induction ops with
  | nil =>
    intro s h _
    refine ⟨h, by simp [runTrace, numAdds], by simp [runTrace], by simp [runTrace]⟩
  | cons op ops ih =>
    intro s hInv hB
    cases op with
    | add m =>
      rw [show numAdds (Op.add m :: ops) = numAdds ops + 1 from rfl] at hB
      push_cast at hB
      have hB1 : s.nextFilterID + 1 < 2 ^ 63 := by
        rw [two63]
        omega
      have hw : wrap64 (s.nextFilterID + 1) = s.nextFilterID + 1 :=
        wrap64_eq _ (by have := hInv.1; omega) hB1
      have hA : (AddFilter m s).2.nextFilterID = s.nextFilterID + 1 := hw
      have hAf : (AddFilter m s).2.filters =
          { id := s.nextFilterID, m := m, ch := s.nextCh } :: s.filters := rfl
      have hfst : (AddFilter m s).1.1 = s.nextFilterID := rfl
      have hrt1 : (runTrace s (Op.add m :: ops)).1 =
          (runTrace (AddFilter m s).2 ops).1 := rfl
      have hrt2 : (runTrace s (Op.add m :: ops)).2 =
          (AddFilter m s).1.1 :: (runTrace (AddFilter m s).2 ops).2 := rfl
      have hInv1 : RegInv (AddFilter m s).2 := by
        refine ⟨?_, ?_, ?_⟩
        · rw [hA]
          have := hInv.1
          omega
        · intro f hf
          rw [hA]
          rw [hAf] at hf
          rcases List.mem_cons.mp hf with rfl | hf
          · exact lt_add_one _
          · exact lt_trans (hInv.2.1 f hf) (lt_add_one _)
        · rw [hAf, List.map_cons, List.pairwise_cons]
          refine ⟨?_, hInv.2.2⟩
          intro a ha
          rcases List.mem_map.mp ha with ⟨f, hf, rfl⟩
          exact hInv.2.1 f hf
      have hB2 : (AddFilter m s).2.nextFilterID + (numAdds ops : Int) < 2 ^ 63 := by
        rw [hA, two63]
        omega
      obtain ⟨ih1, ih2, ih3, ih4⟩ := ih (AddFilter m s).2 hInv1 hB2
      refine ⟨?_, ?_, ?_, ?_⟩
      · rw [hrt1]
        exact ih1
      · rw [hrt1, ih2, hA,
          show numAdds (Op.add m :: ops) = numAdds ops + 1 from rfl]
        push_cast
        ring
      · rw [hrt2, List.pairwise_cons]
        refine ⟨?_, ih3⟩
        intro i hi
        have h4 := ih4 i hi
        rw [hA] at h4
        rw [hfst]
        omega
      · intro i hi
        rw [hrt2] at hi
        rcases List.mem_cons.mp hi with rfl | hi
        · exact le_refl s.nextFilterID
        · have h4 := ih4 i hi
          rw [hA] at h4
          omega
    | remove rid =>
      obtain ⟨hInv1, hnext⟩ := RemoveFilter_inv rid s hInv
      have hB1 : (RemoveFilter rid s).2.nextFilterID + (numAdds ops : Int) < 2 ^ 63 := by
        rw [hnext]
        simpa only [numAdds] using hB
      obtain ⟨ih1, ih2, ih3, ih4⟩ := ih (RemoveFilter rid s).2 hInv1 hB1
      refine ⟨ih1, ?_, ih3, ?_⟩
      · simp only [runTrace, numAdds]
        rw [ih2, hnext]
      · simp only [runTrace]
        intro i hi
        have := ih4 i hi
        rw [hnext] at this
        exact this

/-- Claim C3: `AddFilter` allocates the next identifier and a fresh
channel, inserts the new filter at the head of the list and returns both;
over any sequence of `AddFilter` and `RemoveFilter` mutations from the
fresh conversation state with fewer than `2 ^ 63` adds (the int64 counter
cannot overflow), the identifiers handed out are strictly increasing in
call order and the filter list never holds two entries with the same
identifier. -/
theorem registry_ids_unique_increasing (ops : List Op)
    (hB : (numAdds ops : Int) < 2 ^ 63) :
    (∀ (m : V → Bool) (s : XState),
      AddFilter m s =
        ((s.nextFilterID, s.nextCh),
         { nextFilterID := wrap64 (s.nextFilterID + 1), nextCh := s.nextCh + 1,
           filters := { id := s.nextFilterID, m := m, ch := s.nextCh } :: s.filters,
           closed := s.closed })) ∧
    List.Pairwise (fun a b => a < b) (runTrace x0 ops).2 ∧
    List.Nodup ((runTrace x0 ops).1.filters.map Filt.id) := by
  have hInv0 : RegInv x0 := ⟨le_refl 0, by simp [x0], by simp [x0]⟩
  have h := runTrace_spec ops x0 hInv0 (by simpa [x0] using hB)
  refine ⟨fun m s => rfl, h.2.2.1, ?_⟩
  exact List.Pairwise.imp (fun hab => ne_of_gt hab) h.1.2.2

/-- The mutation sequence of the witness for claim C3: three adds and one
remove. -/
def wOps : List Op :=
  [Op.add (IQResult "a"), Op.add (byCorrelationIdSpec "b"), Op.remove 0,
   Op.add (IQResult "c")]

/-- Claim C3, witness: on a concrete sequence of three adds and a remove,
the bound holds, the returned identifiers 0, 1, 2 strictly increase, and
the surviving filter ids are distinct. -/
theorem registry_ids_unique_increasing_w :
    (numAdds wOps : Int) < 2 ^ 63 ∧
    List.Pairwise (fun a b => a < b) (runTrace x0 wOps).2 ∧
    List.Nodup ((runTrace x0 wOps).1.filters.map Filt.id) := by
  refine ⟨by decide, ?_, ?_⟩
  · exact (registry_ids_unique_increasing wOps (by decide)).2.1
  · exact (registry_ids_unique_increasing wOps (by decide)).2.2

end Xmpp
